import Mathlib

/-!
Verification of the rhizome-atlas dependency manager core.

The Go sources (`pkg/modfile`, `internal/server`) are embedded shallowly:
strings are `List Char`, file contents are passed explicitly, and the
filesystem / network boundary (hashing a cached directory, listing remote
git tags, cloning) is abstracted into explicit parameters that stand for
the results those external calls produce.  Each definition mirrors the
corresponding Go function; comments note every elision.
-/

/-- Go strings, modelled as lists of characters. -/
abbrev Str := List Char

/-- `unicode.IsSpace` restricted to the ASCII space characters that occur in
the formats at hand (the Unicode-only space classes are elided). -/
def isSpace (c : Char) : Bool :=
  c = ' ' || c = '\t' || c = '\n' || c = '\x0b' || c = '\x0c' || c = '\r'

/-- `strings.TrimSpace`, left half: drop leading whitespace. -/
def trimL (s : Str) : Str := s.dropWhile isSpace

/-- `strings.TrimSpace`, right half: drop trailing whitespace. -/
def trimR (s : Str) : Str := (s.reverse.dropWhile isSpace).reverse

/-- `strings.TrimSpace`. -/
def trim (s : Str) : Str := trimR (trimL s)

/-- Accumulator loop for `strings.Fields`. -/
def fieldsAux : Str → Str → List Str
  | [], acc => if acc = [] then [] else [acc.reverse]
  | c :: cs, acc =>
      if isSpace c then
        if acc = [] then fieldsAux cs [] else acc.reverse :: fieldsAux cs []
      else fieldsAux cs (c :: acc)

/-- `strings.Fields`: split around runs of whitespace; no empty fields. -/
def fields (s : Str) : List Str := fieldsAux s []

/-- `strings.HasPrefix`. -/
def hasPre (pre s : Str) : Bool :=
  match pre with
  | [] => true
  | a :: as =>
      match s with
      | [] => false
      | b :: bs => a == b && hasPre as bs

/-- `strings.TrimPrefix`. -/
def trimPre (pre s : Str) : Str :=
  if hasPre pre s then s.drop pre.length else s

/-- `strings.SplitN(s, sep, 2)` for a nonempty `sep`: split at the first
occurrence of `sep`; `none` when `sep` does not occur. -/
def splitFirst (sep : Str) : Str → Option (Str × Str)
  | [] => if hasPre sep [] then some ([], []) else none
  | c :: cs =>
      if hasPre sep (c :: cs) then some ([], (c :: cs).drop sep.length)
      else match splitFirst sep cs with
           | some (a, b) => some (c :: a, b)
           | none => none

/-- Drop one trailing carriage return, as `bufio.ScanLines` does. -/
def dropCR (l : Str) : Str :=
  match l.reverse with
  | c :: rest => if c = '\r' then rest.reverse else l
  | [] => l

/-- Accumulator loop for `splitLines`. -/
def splitLinesAux : Str → Str → List Str
  | [], acc => if acc = [] then [] else [dropCR acc.reverse]
  | c :: cs, acc =>
      if c = '\n' then dropCR acc.reverse :: splitLinesAux cs []
      else splitLinesAux cs (c :: acc)

/-- `bufio.Scanner` with `ScanLines`: split at newlines, strip one trailing
`\r` per line, and do not report a final empty token after a trailing
newline. -/
def splitLines (s : Str) : List Str := splitLinesAux s []

/-! ## The holon.mod data model (`pkg/modfile`) -/

/-- `modfile.Require`: a single dependency declaration. -/
structure Require where
  path : Str
  version : Str
deriving DecidableEq, Repr

/-- `modfile.Replace`: a local path override for a dependency. -/
structure Replace where
  old : Str
  localPath : Str
deriving DecidableEq, Repr

/-- `modfile.ModFile`: a parsed holon.mod file. -/
structure ModFile where
  holonPath : Str := []
  require : List Require := []
  replace : List Replace := []
deriving DecidableEq, Repr

/-- Parse errors; `fmt.Errorf("invalid require line: %q", line)` and the
replace analogue are modelled as constructors carrying the offending line. -/
inductive ParseErr
  | invalidRequire (line : Str)
  | invalidReplace (line : Str)
deriving DecidableEq, Repr

/-- The scanner state `inBlock` of `modfile.Parse` ("", "require", "replace"). -/
inductive Block
  | none
  | require
  | replace
deriving DecidableEq, Repr

/-- String literals of the format. -/
def holonDir : Str := "holon ".toList

def requireOpen : Str := "require (".toList

def replaceOpen : Str := "replace (".toList

def commentStart : Str := "//".toList

def sepArrow : Str := " => ".toList

/-- One iteration of the scanner loop in `modfile.Parse`. -/
def parseStep (b : Block) (m : ModFile) (raw : Str) :
    Except ParseErr (Block × ModFile) :=
  let line := trim raw
  if line = [] || hasPre commentStart line then .ok (b, m)
  else if line = [')'] then .ok (.none, m)
  else if line = requireOpen then .ok (.require, m)
  else if line = replaceOpen then .ok (.replace, m)
  else if hasPre holonDir line then
    .ok (b, { m with holonPath := line.drop holonDir.length })
  else
    match b with
    | .require =>
        match fields line with
        | [p, v] => .ok (b, { m with require := m.require ++ [⟨p, v⟩] })
        | _ => .error (.invalidRequire line)
    | .replace =>
        match splitFirst sepArrow line with
        | some (a, c) =>
            .ok (b, { m with replace := m.replace ++ [⟨trim a, trim c⟩] })
        | Option.none => .error (.invalidReplace line)
    | .none => .ok (b, m)

/-- The scanner loop of `modfile.Parse` over a list of lines. -/
def parseLines : Block → ModFile → List Str → Except ParseErr ModFile
  | _, m, [] => .ok m
  | b, m, l :: ls =>
      match parseStep b m l with
      | .ok (b', m') => parseLines b' m' ls
      | .error e => .error e

/-- `modfile.Parse`, with the file's content passed as text (the `os.Open`
I/O boundary is elided; a missing file is an error the claims exclude). -/
def parse (text : Str) : Except ParseErr ModFile :=
  parseLines .none {} (splitLines text)

/-- The require line `"    %s %s"` written by `ModFile.Write`. -/
def reqLine (r : Require) : Str := "    ".toList ++ r.path ++ ' ' :: r.version

/-- The replace line `"    %s => %s"` written by `ModFile.Write`. -/
def repLine (r : Replace) : Str :=
  "    ".toList ++ r.old ++ sepArrow ++ r.localPath

/-- The lines emitted by `ModFile.Write`, one per `Fprintf`/`Fprintln`. -/
def serializeLines (m : ModFile) : List Str :=
  (holonDir ++ m.holonPath) ::
  (if m.require = [] then [] else
    [] :: requireOpen :: m.require.map reqLine ++ [[')']]) ++
  (if m.replace = [] then [] else
    [] :: replaceOpen :: m.replace.map repLine ++ [[')']])

/-- Join lines with the `\n` each `Fprintf` in `ModFile.Write` ends with. -/
def unlines (ls : List Str) : Str := ls.flatMap (fun l => l ++ ['\n'])

/-- `ModFile.Write`, as the text it writes (the `os.Create` boundary is
elided). -/
def serialize (m : ModFile) : Str := unlines (serializeLines m)

/-- `ModFile.AddRequire` on the require list: update the first entry with
the given path in place (reporting `false`), else append (reporting `true`). -/
def addRequireList : List Require → Str → Str → Bool × List Require
  | [], p, v => (true, [⟨p, v⟩])
  | r :: rs, p, v =>
      if r.path = p then (false, ⟨r.path, v⟩ :: rs)
      else
        let (b, rs') := addRequireList rs p v
        (b, r :: rs')

/-- `ModFile.AddRequire`. -/
def addRequire (m : ModFile) (p v : Str) : Bool × ModFile :=
  let (b, rs) := addRequireList m.require p v
  (b, { m with require := rs })

/-- `ModFile.RemoveRequire` on the require list: remove the first entry with
the given path, reporting whether one was found. -/
def removeRequireList : List Require → Str → Bool × List Require
  | [], _ => (false, [])
  | r :: rs, p =>
      if r.path = p then (true, rs)
      else
        let (b, rs') := removeRequireList rs p
        (b, r :: rs')

/-- `ModFile.RemoveRequire`. -/
def removeRequire (m : ModFile) (p : Str) : Bool × ModFile :=
  let (b, rs) := removeRequireList m.require p
  (b, { m with require := rs })

/-- `ModFile.ResolvedPath`: the local path of the first matching replace
directive, or empty. -/
def resolvedPath (m : ModFile) (depPath : Str) : Str :=
  match m.replace.find? (fun r => r.old == depPath) with
  | some r => r.localPath
  | none => []

/-! ## The holon.sum data model (`pkg/modfile`) -/

/-- `modfile.SumEntry`: one line of holon.sum. -/
structure SumEntry where
  path : Str
  version : Str
  hash : Str
deriving DecidableEq, Repr

/-- `modfile.SumFile`. -/
structure SumFile where
  entries : List SumEntry := []
deriving DecidableEq, Repr

/-- Sum-file parse error (`fmt.Errorf("invalid holon.sum line: %q", line)`). -/
inductive SumErr
  | invalidLine (line : Str)
deriving DecidableEq, Repr

/-- The scanner loop of `modfile.ParseSum` over a list of lines. -/
def parseSumLines : List SumEntry → List Str → Except SumErr SumFile
  | acc, [] => .ok ⟨acc⟩
  | acc, l :: ls =>
      let line := trim l
      if line = [] then parseSumLines acc ls
      else
        match fields line with
        | [p, v, h] => parseSumLines (acc ++ [⟨p, v, h⟩]) ls
        | _ => .error (.invalidLine line)

/-- `modfile.ParseSum` with the file content passed as text (a missing file,
which Go turns into an empty SumFile, is the empty text here). -/
def parseSum (text : Str) : Except SumErr SumFile :=
  parseSumLines [] (splitLines text)

/-- Go string comparison `<`: lexicographic byte order (codepoint order on
the character lists used here). -/
def ltStr : Str → Str → Bool
  | [], [] => false
  | [], _ :: _ => true
  | _ :: _, [] => false
  | a :: as, b :: bs => if a < b then true else if b < a then false else ltStr as bs

/-- The comparison closure passed to `sort.Slice` in `SumFile.Write`. -/
def sumLess (x y : SumEntry) : Bool :=
  if x.path ≠ y.path then ltStr x.path y.path else ltStr x.version y.version

/-- The non-strict order induced by `sumLess`, used to state sortedness. -/
def sumLE (x y : SumEntry) : Prop := sumLess y x = false

instance : DecidableRel sumLE := fun x y => by unfold sumLE; infer_instance

/-- `sort.Slice(s.Entries, less)` in `SumFile.Write`: Go guarantees a
permutation that is sorted by `less` (the algorithm is unspecified and
unstable); modelled by insertion sort into the induced order. -/
def sortSum (es : List SumEntry) : List SumEntry := List.insertionSort sumLE es

/-- `SumFile.Write`, as the text it writes: sort, then one
`"%s %s %s\n"` line per entry. -/
def serializeSum (s : SumFile) : Str :=
  unlines ((sortSum s.entries).map (fun e => e.path ++ ' ' :: e.version ++ ' ' :: e.hash))

/-- `SumFile.Set`: upsert by (path, version). -/
def sumSetList : List SumEntry → Str → Str → Str → List SumEntry
  | [], p, v, h => [⟨p, v, h⟩]
  | e :: es, p, v, h =>
      if e.path = p ∧ e.version = v then ⟨e.path, e.version, h⟩ :: es
      else e :: sumSetList es p v h

/-- `SumFile.Set` on a SumFile. -/
def sumSet (s : SumFile) (p v h : Str) : SumFile := ⟨sumSetList s.entries p v h⟩

/-- `SumFile.Lookup`: the hash recorded for (path, version), or empty. -/
def sumLookup (s : SumFile) (p v : Str) : Str :=
  match s.entries.find? (fun e => e.path == p && e.version == v) with
  | some e => e.hash
  | none => []

/-! ## Server operations (`internal/server`)

File-system and network effects are abstracted: the hashes `hashDir` /
`hashFile` compute for a cache entry are supplied by a `CacheOracle`
(empty string = missing, as in the Go code, where a hash error leaves
`currentHash` empty), the parsed state of the project's holon.mod /
holon.sum is supplied directly, and `git ls-remote` output is passed as
text. -/

/-- gRPC status codes used by the modelled operations. -/
inductive GrpcCode
  | notFound
  | internal
deriving DecidableEq, Repr

/-- Results of the external hashing calls made against the cache: for a
dependency (path, version), the hex digest `hashDir(cachePathFor(path,
version))` would produce, and the digest `hashFile(.../HOLON.md)` would
produce; `[]` models the empty string Go gets when the call fails. -/
structure CacheOracle where
  dirHash : Str → Str → Str
  fileHash : Str → Str → Str

/-- One problem string appended to `errors` in `Server.Verify`; the
`fmt.Sprintf` formats are modelled as constructors carrying the values
they interpolate. -/
inductive Problem
  | replaceWarning (old localPath : Str)
  | notInCache (path version : Str)
  | hashMismatch (path version want got : Str)
deriving DecidableEq, Repr

def mdSuffix : Str := "/HOLON.md".toList

def h1Pre : Str := "h1:".toList

/-- The body of the sum-entry loop in `Server.Verify`: the problem (if any)
one entry contributes. -/
def verifyEntry (o : CacheOracle) (e : SumEntry) : Option Problem :=
  let isMD := mdSuffix.isSuffixOf e.version
  let version := if isMD then e.version.take (e.version.length - mdSuffix.length)
                 else e.version
  let currentHash := if isMD then o.fileHash e.path version else o.dirHash e.path version
  if currentHash = [] then some (.notInCache e.path e.version)
  else if h1Pre ++ currentHash ≠ e.hash then
    some (.hashMismatch e.path e.version e.hash currentHash)
  else none

/-- `Server.Verify` after the sum file parsed: `mod?` is the result of
parsing holon.mod (`none` when `modfile.Parse` failed, in which case Go's
`mod` is nil and contributes no warnings). Returns (Ok, Errors). -/
def verify (o : CacheOracle) (sum : SumFile) (mod? : Option ModFile) :
    Bool × List Problem :=
  let warns := match mod? with
    | some m => m.replace.map (fun r => Problem.replaceWarning r.old r.localPath)
    | none => []
  let probs := warns ++ sum.entries.filterMap (verifyEntry o)
  (probs.isEmpty, probs)

/-- One edge of `Server.Graph`'s response. -/
structure Edge where
  fromPath : Str
  toPath : Str
  version : Str
deriving DecidableEq, Repr

/-- The contents of the cache as `Server.Graph` sees it: for a requirement
(path, version), the result of `modfile.Parse` on the holon.mod inside its
cache directory (`none` when the directory or file is missing or the parse
fails — Go only descends when `err == nil`). -/
def SubManifests := Str → Str → Option ModFile

/-- The edge-accumulating loop of `Server.Graph`. -/
def graphLoop (cache : SubManifests) (root : Str) :
    List Require → List Edge → List Edge
  | [], acc => acc
  | r :: rs, acc =>
      let acc := acc ++ [Edge.mk root r.path r.version]
      let acc := match cache r.path r.version with
        | some sub =>
            acc ++ sub.require.map (fun s => Edge.mk r.path s.path s.version)
        | none => acc
      graphLoop cache root rs acc

/-- `Server.Graph` after holon.mod parsed: the response (Root, Edges). -/
def graph (cache : SubManifests) (m : ModFile) : Str × List Edge :=
  (m.holonPath, graphLoop cache m.holonPath m.require [])

/-! ## Semver parsing and Update (`internal/server`) -/

def isDigit (c : Char) : Bool := '0' ≤ c && c ≤ '9'

def isOctal (c : Char) : Bool := '0' ≤ c && c ≤ '7'

def isBinary (c : Char) : Bool := c = '0' || c = '1'

def isHex (c : Char) : Bool :=
  isDigit c || ('a' ≤ c && c ≤ 'f') || ('A' ≤ c && c ≤ 'F')

def hexVal (c : Char) : Nat :=
  if isDigit c then c.toNat - '0'.toNat
  else if 'a' ≤ c && c ≤ 'f' then c.toNat - 'a'.toNat + 10
  else c.toNat - 'A'.toNat + 10

/-- Value of a digit run in the given base. -/
def digitsVal (base : Nat) (ds : Str) : Nat :=
  ds.foldl (fun acc c => acc * base + hexVal c) 0

/-- The magnitude scan inside `fmt`'s integer scanning (`scanBasePrefix`
followed by `scanNumber` and `strconv.ParseInt`): a leading `0` selects
octal unless followed by `x`/`X` (hex), `b`/`B` (binary) or `o`/`O`
(octal); the longest run of digits of the detected base is consumed and
anything after it is left unread; the run may be empty only in the bare
leading-`0` case (the zero itself was the digit).  The int64 range check
`strconv.ParseInt` performs on the full signed token is applied by
`sscanInt`, after the sign. -/
def scanMag : Str → Option Nat
  | [] => none
  | c :: cs =>
      if c = '0' then
        match cs with
        | [] => some 0
        | c2 :: r2 =>
            if c2 = 'x' || c2 = 'X' then
              if r2.takeWhile isHex = [] then none
              else some (digitsVal 16 (r2.takeWhile isHex))
            else if c2 = 'b' || c2 = 'B' then
              if r2.takeWhile isBinary = [] then none
              else some (digitsVal 2 (r2.takeWhile isBinary))
            else if c2 = 'o' || c2 = 'O' then
              if r2.takeWhile isOctal = [] then none
              else some (digitsVal 8 (r2.takeWhile isOctal))
            else some (digitsVal 8 (cs.takeWhile isOctal))
      else
        if (c :: cs).takeWhile isDigit = [] then none
        else some (digitsVal 10 ((c :: cs).takeWhile isDigit))

/-- `fmt.Sscan(s, &i)` for an `int` argument, scanning verb `%v`: skip
spaces, accept an optional sign, then scan a magnitude in Go scan syntax,
ignoring whatever follows it; finally `strconv.ParseInt(tok, base, 64)`
fails with a range error unless the signed value fits in int64, i.e. lies
in [-2^63, 2^63 - 1].  (Go additionally allows digit-separating
underscores; those inputs do not arise here and are elided.)  `none`
models `err != nil`, in which case the Go variable keeps its previous
value. -/
def sscanInt (input : Str) : Option Int :=
  match input.dropWhile isSpace with
  | [] => none
  | c :: cs =>
      let neg := c = '-'
      let body := if c = '-' || c = '+' then cs else c :: cs
      (scanMag body).bind (fun m =>
        let v : Int := if neg then -(m : Int) else (m : Int)
        if -(2 ^ 63 : Int) ≤ v ∧ v ≤ 2 ^ 63 - 1 then some v else none)

/-- `strings.SplitN(s, ".", 3)`: split at the first two dots. -/
def splitDots3 (s : Str) : List Str :=
  match splitFirst ['.'] s with
  | none => [s]
  | some (a, rest) =>
      match splitFirst ['.'] rest with
      | none => [a, rest]
      | some (b, rest2) => [a, b, rest2]

/-- `parseSemver`: returns the (major, minor, patch) values and the `ok`
flag exactly as the Go function does — components whose `Sscan` fails keep
their zero value, and fewer than three parts yields `(0, 0, 0, false)`. -/
def parseSemver (v : Str) : (Int × Int × Int) × Bool :=
  let v' := trimPre ['v'] v
  match splitDots3 v' with
  | [a, b, c] =>
      (((sscanInt a).getD 0, (sscanInt b).getD 0, (sscanInt c).getD 0),
       (sscanInt a).isSome && (sscanInt b).isSome && (sscanInt c).isSome)
  | _ => ((0, 0, 0), false)

/-- `compareSemver`: compare by major, then minor, then patch, ignoring the
`ok` flags. -/
def compareSemver (a b : Str) : Int :=
  let x := (parseSemver a).1
  let y := (parseSemver b).1
  if x.1 ≠ y.1 then x.1 - y.1
  else if x.2.1 ≠ y.2.1 then x.2.1 - y.2.1
  else x.2.2 - y.2.2

/-- The non-strict order used to model `sort.Slice(candidates, less)` with
`less i j = compareSemver(c[i], c[j]) < 0`. -/
def semverLE (a b : Str) : Prop := compareSemver a b ≤ 0

instance : DecidableRel semverLE := fun a b => by unfold semverLE; infer_instance

/-- `strings.Split(s, "\n")` (no limit). -/
def splitNL : Str → List Str
  | [] => [[]]
  | c :: cs =>
      if c = '\n' then [] :: splitNL cs
      else match splitNL cs with
           | a :: rest => (c :: a) :: rest
           | [] => [[c]]

def refsTags : Str := "refs/tags/".toList

/-- The candidate-collecting loop of `latestCompatibleTag`: from each
`ls-remote` output line with at least two fields, take the second field,
strip `refs/tags/`, and keep it when it parses with the current major. -/
def candidatesOf (outLines : List Str) (currentMajor : Int) : List Str :=
  outLines.filterMap (fun line =>
    match fields line with
    | _ :: ref :: _ =>
        let tag := trimPre refsTags ref
        if (parseSemver tag).2 && (parseSemver tag).1.1 = currentMajor then
          some tag
        else none
    | _ => none)

/-- `latestCompatibleTag` after `git ls-remote` succeeded with output
`out` (the network call and the `.git`-suffix retry are elided; a failed
call never reaches this logic). -/
def latestCompatibleTag (out : Str) (currentVersion : Str) : Str :=
  let pc := parseSemver currentVersion
  if !pc.2 then currentVersion
  else
    let candidates := candidatesOf (splitNL out) pc.1.1
    if candidates = [] then currentVersion
    else (List.insertionSort semverLE candidates).getLastD currentVersion

/-! ## Add and Remove (`internal/server`) -/

/-- The project directory's durable state, with holon.mod already parsed
(both operations modelled below abort before touching anything when the
parse fails, which the claims exclude). -/
structure ProjectState where
  mod : ModFile
  sum : SumFile
deriving DecidableEq, Repr

/-- The outcome of `fetchToCache(path, version)` together with the hashes
the subsequent `hashDir` / `hashFile` calls would produce: `failure` is a
non-nil fetch error (Go then clears the cache path), `success` carries the
returned cache path and the two digests (`[]` = the hash call failed). -/
inductive FetchOutcome
  | success (cachePath dirHash mdHash : Str)
  | failure
deriving Repr

/-- The dependency message `Server.Add` returns. -/
structure AddResp where
  path : Str
  version : Str
  cachePath : Str
deriving DecidableEq, Repr

/-- `Server.Add` after holon.mod parsed: add/update the requirement, persist
the manifest, then — only when the fetch succeeded with a non-empty cache
path — record the non-empty hashes in holon.sum and persist it.  The
write-I/O boundary is elided: the returned `ProjectState` is what the
directory's files hold afterwards. -/
def serverAdd (st : ProjectState) (fetch : FetchOutcome) (p v : Str) :
    ProjectState × AddResp :=
  let mod' := (addRequire st.mod p v).2
  match fetch with
  | .failure => ({ mod := mod', sum := st.sum }, ⟨p, v, []⟩)
  | .success cachePath dirHash mdHash =>
      if cachePath = [] then ({ mod := mod', sum := st.sum }, ⟨p, v, []⟩)
      else
        let sum := st.sum
        let sum := if dirHash ≠ [] then sumSet sum p v (h1Pre ++ dirHash) else sum
        let sum := if mdHash ≠ [] then
            sumSet sum p (v ++ mdSuffix) (h1Pre ++ mdHash)
          else sum
        ({ mod := mod', sum := sum }, ⟨p, v, cachePath⟩)

/-- `Server.Remove` after holon.mod parsed: remove the requirement, or fail
with `NotFound` leaving the files untouched (the manifest is only written
on the success path). -/
def serverRemove (st : ProjectState) (p : Str) :
    Except GrpcCode ProjectState :=
  let res := removeRequire st.mod p
  if res.1 then .ok { mod := res.2, sum := st.sum }
  else .error .notFound

/-! ## Theorems -/

lemma addRequireList_spec (rs : List Require) (p v : Str) :
    addRequireList rs p v =
      if rs.any (fun r => r.path == p) then
        (false, rs.set (rs.findIdx (fun r => r.path == p)) ⟨p, v⟩)
      else (true, rs ++ [⟨p, v⟩]) := by
  induction rs with
  | nil => simp [addRequireList]
  | cons r rs ih =>
      by_cases h : r.path = p
      · simp [addRequireList, h, List.findIdx_cons]
      · simp only [addRequireList, if_neg h, ih, List.any_cons, List.findIdx_cons,
          beq_iff_eq, h, if_false, decide_eq_true_eq]
        have hb : (r.path == p) = false := by simp [h]
        by_cases h2 : rs.any (fun r => r.path == p)
        · simp [h2, h, hb, List.set]
        · simp [h2, h, hb]

/-- C6: `AddRequire` updates the first requirement carrying the path in
place (same position, same length) and reports `false` ("updated") when the
path is present; otherwise it appends the new requirement, growing the list
by one, and reports `true` ("added"). -/
theorem addRequire_updates_in_place_or_appends (m : ModFile) (p v : Str) :
    addRequire m p v =
      (if m.require.any (fun r => r.path == p) then
        (false,
         { m with require :=
            m.require.set (m.require.findIdx (fun r => r.path == p)) ⟨p, v⟩ })
      else (true, { m with require := m.require ++ [⟨p, v⟩] })) ∧
    (addRequire m p v).2.require.length =
      (if m.require.any (fun r => r.path == p) then m.require.length
       else m.require.length + 1) := by
  unfold addRequire
  rw [addRequireList_spec]
  by_cases h : m.require.any (fun r => r.path == p) <;> simp [h]

lemma removeRequireList_spec (rs : List Require) (p : Str) :
    removeRequireList rs p =
      (rs.any (fun r => r.path == p), rs.eraseP (fun r => r.path == p)) := by
  induction rs with
  | nil => simp [removeRequireList]
  | cons r rs ih =>
      by_cases h : r.path = p
      · simp [removeRequireList, h, List.eraseP_cons]
      · have hb : (r.path == p) = false := by simp [h]
        simp [removeRequireList, h, hb, ih, List.eraseP_cons]

/-- C9: `Remove` of a present path succeeds and removes exactly the first
requirement with that path (the rest keep their order), leaving the replace
directives and every sum entry untouched; `Remove` of an absent path fails
with `NotFound`, producing no new state. -/
theorem remove_frame (st : ProjectState) (p : Str) :
    serverRemove st p =
      (if st.mod.require.any (fun r => r.path == p) then
        .ok { mod := { st.mod with
                require := st.mod.require.eraseP (fun r => r.path == p) },
              sum := st.sum }
      else .error GrpcCode.notFound) ∧
    (∀ st', serverRemove st p = .ok st' →
      st'.sum = st.sum ∧ st'.mod.replace = st.mod.replace ∧
      st'.mod.holonPath = st.mod.holonPath) := by
  have hmain : serverRemove st p =
      (if st.mod.require.any (fun r => r.path == p) then
        .ok { mod := { st.mod with
                require := st.mod.require.eraseP (fun r => r.path == p) },
              sum := st.sum }
      else .error GrpcCode.notFound) := by
    unfold serverRemove removeRequire
    rw [removeRequireList_spec]
  refine ⟨hmain, ?_⟩
  intro st' hok
  rw [hmain] at hok
  by_cases h : st.mod.require.any (fun r => r.path == p)
  · rw [if_pos h] at hok
    cases hok
    exact ⟨rfl, rfl, rfl⟩
  · rw [if_neg h] at hok
    cases hok

/-- Witness for `remove_frame`: a concrete removal, with the sum entry kept. -/
theorem remove_frame_witness :
    serverRemove
      ⟨⟨"r".toList, [⟨"a".toList, "v1".toList⟩], [⟨"o".toList, "l".toList⟩]⟩,
       ⟨[⟨"a".toList, "v1".toList, "h1:x".toList⟩]⟩⟩
      "a".toList =
      .ok ⟨⟨"r".toList, [], [⟨"o".toList, "l".toList⟩]⟩,
           ⟨[⟨"a".toList, "v1".toList, "h1:x".toList⟩]⟩⟩ ∧
    (⟨⟨"r".toList, [], [⟨"o".toList, "l".toList⟩]⟩,
      ⟨[⟨"a".toList, "v1".toList, "h1:x".toList⟩]⟩⟩ : ProjectState).sum =
    (⟨⟨"r".toList, [⟨"a".toList, "v1".toList⟩], [⟨"o".toList, "l".toList⟩]⟩,
      ⟨[⟨"a".toList, "v1".toList, "h1:x".toList⟩]⟩⟩ : ProjectState).sum := by
  have h := remove_frame
    ⟨⟨"r".toList, [⟨"a".toList, "v1".toList⟩], [⟨"o".toList, "l".toList⟩]⟩,
     ⟨[⟨"a".toList, "v1".toList, "h1:x".toList⟩]⟩⟩ "a".toList
  have hok : serverRemove
      ⟨⟨"r".toList, [⟨"a".toList, "v1".toList⟩], [⟨"o".toList, "l".toList⟩]⟩,
       ⟨[⟨"a".toList, "v1".toList, "h1:x".toList⟩]⟩⟩
      "a".toList =
      .ok ⟨⟨"r".toList, [], [⟨"o".toList, "l".toList⟩]⟩,
           ⟨[⟨"a".toList, "v1".toList, "h1:x".toList⟩]⟩⟩ := by
    rw [h.1, if_pos (by decide)]
    rfl
  exact ⟨hok, (h.2 _ hok).1⟩

lemma mem_addRequireList (rs : List Require) (p v : Str) :
    (⟨p, v⟩ : Require) ∈ (addRequireList rs p v).2 := by
  induction rs with
  | nil => simp [addRequireList]
  | cons r rs ih =>
      by_cases h : r.path = p
      · simp [addRequireList, h]
      · simp only [addRequireList, if_neg h]
        exact List.mem_cons_of_mem r ih

/-- C7: when the fetch fails, `Add` still completes, the requirement is
recorded in the persisted manifest, the returned dependency's cache path is
empty, and the sum file is untouched. -/
theorem add_fetch_failure_frame (st : ProjectState) (p v : Str) :
    serverAdd st .failure p v =
      ({ mod := (addRequire st.mod p v).2, sum := st.sum }, ⟨p, v, []⟩) ∧
    (serverAdd st .failure p v).1.sum = st.sum ∧
    (serverAdd st .failure p v).2.cachePath = [] ∧
    (⟨p, v⟩ : Require) ∈ (serverAdd st .failure p v).1.mod.require := by
  refine ⟨rfl, rfl, rfl, ?_⟩
  show (⟨p, v⟩ : Require) ∈ (addRequire st.mod p v).2.require
  unfold addRequire
  exact mem_addRequireList st.mod.require p v

/-- C2: `Verify`'s `ok` is true exactly when its problem list is empty, and
since every replace directive contributes one warning problem, any manifest
with at least one replacement forces `ok = false` — regardless of whether
the sum entries match the cache. -/
theorem verify_ok_iff_no_problems (o : CacheOracle) (sum : SumFile)
    (mod? : Option ModFile) :
    ((verify o sum mod?).1 = true ↔ (verify o sum mod?).2 = []) ∧
    (∀ m, mod? = some m → m.replace ≠ [] → (verify o sum mod?).1 = false) := by
  constructor
  · unfold verify
    simp [List.isEmpty_iff]
  · intro m hm hrep
    subst hm
    unfold verify
    rw [List.isEmpty_eq_false]
    intro hcontra
    rcases List.append_eq_nil.mp hcontra with ⟨hwarns, _⟩
    exact hrep (List.map_eq_nil_iff.mp hwarns)

/-- Witness for `verify_ok_iff_no_problems`: one replacement and one sum
entry whose recorded hash matches the oracle, yet `ok = false`. -/
theorem verify_replace_forces_not_ok_witness :
    (verify ⟨fun _ _ => ['a'], fun _ _ => ['b']⟩
      ⟨[⟨"p".toList, "v1".toList, "h1:a".toList⟩]⟩
      (some ⟨"r".toList, [], [⟨"o".toList, "l".toList⟩]⟩)).1 = false :=
  (verify_ok_iff_no_problems ⟨fun _ _ => ['a'], fun _ _ => ['b']⟩
      ⟨[⟨"p".toList, "v1".toList, "h1:a".toList⟩]⟩
      (some ⟨"r".toList, [], [⟨"o".toList, "l".toList⟩]⟩)).2
    ⟨"r".toList, [], [⟨"o".toList, "l".toList⟩]⟩ rfl (by decide)

/-- The edges one requirement contributes: its root edge, then (only when
its cached snapshot has a parseable manifest) one edge per sub-requirement. -/
def tierOf (cache : SubManifests) (root : Str) (r : Require) : List Edge :=
  Edge.mk root r.path r.version ::
    (match cache r.path r.version with
     | some sub => sub.require.map (fun s => Edge.mk r.path s.path s.version)
     | none => [])

lemma graphLoop_closed (cache : SubManifests) (root : Str)
    (rs : List Require) (acc : List Edge) :
    graphLoop cache root rs acc = acc ++ rs.flatMap (tierOf cache root) := by
  induction rs generalizing acc with
  | nil => simp [graphLoop]
  | cons r rs ih =>
      have hstep : graphLoop cache root (r :: rs) acc =
          graphLoop cache root rs (acc ++ tierOf cache root r) := by
        simp only [graphLoop]
        cases h : cache r.path r.version <;> simp [h, tierOf]
      rw [hstep, ih, List.flatMap_cons, List.append_assoc]

/-- C4: the graph is exactly two-tier — for each requirement in manifest
order it lists the edge root→path@version followed by that requirement's
sub-edges (one per sub-requirement, in the cached sub-manifest's order,
only when the cache holds a parseable manifest), and every edge starts at
the root or at a direct requirement, so no sub-dependency ever contributes
outgoing edges however deep its own requirements go. -/
theorem graph_exactly_two_tier (cache : SubManifests) (m : ModFile) :
    (graph cache m).1 = m.holonPath ∧
    (graph cache m).2 = m.require.flatMap (tierOf cache m.holonPath) ∧
    ∀ e ∈ (graph cache m).2,
      e.fromPath = m.holonPath ∨ ∃ r ∈ m.require, e.fromPath = r.path := by
  have hclosed : (graph cache m).2 = m.require.flatMap (tierOf cache m.holonPath) := by
    show graphLoop cache m.holonPath m.require [] = _
    rw [graphLoop_closed]
    simp
  refine ⟨rfl, hclosed, ?_⟩
  intro e he
  rw [hclosed] at he
  rcases List.mem_flatMap.mp he with ⟨r, hr, hmem⟩
  unfold tierOf at hmem
  rcases List.mem_cons.mp hmem with h | h
  · left; rw [h]
  · right
    refine ⟨r, hr, ?_⟩
    cases hc : cache r.path r.version with
    | some sub =>
        rw [hc] at h
        rcases List.mem_map.mp h with ⟨s, _, hs⟩
        rw [← hs]
    | none => rw [hc] at h; simp at h

/-- Witness for `graph_exactly_two_tier`: requirements `[A@v1, B@v2]`, A's
snapshot requiring `C@v1`, and C's own snapshot requiring `D@v9` — the edge
list stops at the second tier. -/
theorem graph_exactly_two_tier_witness :
    (graph
      (fun p v =>
        if p = "A".toList ∧ v = "v1".toList then
          some ⟨"A".toList, [⟨"C".toList, "v1".toList⟩], []⟩
        else if p = "C".toList then
          some ⟨"C".toList, [⟨"D".toList, "v9".toList⟩], []⟩
        else none)
      ⟨"root".toList, [⟨"A".toList, "v1".toList⟩, ⟨"B".toList, "v2".toList⟩],
       []⟩).2 =
      [Edge.mk "root".toList "A".toList "v1".toList,
       Edge.mk "A".toList "C".toList "v1".toList,
       Edge.mk "root".toList "B".toList "v2".toList] ∧
    ((Edge.mk "A".toList "C".toList "v1".toList).fromPath = "root".toList ∨
     ∃ r ∈ [⟨"A".toList, "v1".toList⟩, Require.mk "B".toList "v2".toList],
       (Edge.mk "A".toList "C".toList "v1".toList).fromPath = r.path) := by
  constructor
  · rw [(graph_exactly_two_tier _ _).2.1]
    decide
  · exact (graph_exactly_two_tier
      (fun p v =>
        if p = "A".toList ∧ v = "v1".toList then
          some ⟨"A".toList, [⟨"C".toList, "v1".toList⟩], []⟩
        else if p = "C".toList then
          some ⟨"C".toList, [⟨"D".toList, "v9".toList⟩], []⟩
        else none)
      ⟨"root".toList, [⟨"A".toList, "v1".toList⟩, ⟨"B".toList, "v2".toList⟩],
       []⟩).2.2
      (Edge.mk "A".toList "C".toList "v1".toList) (by decide)

lemma parseStep_none_ignored (m : ModFile) (l : Str)
    (h1 : trim l ≠ requireOpen) (h2 : trim l ≠ replaceOpen)
    (h3 : hasPre holonDir (trim l) = false) :
    parseStep .none m l = .ok (.none, m) := by
  unfold parseStep
  by_cases hA : (trim l = [] || hasPre commentStart (trim l)) = true
  · simp [hA]
  · simp only [hA, if_false, Bool.false_eq_true]
    by_cases hB : trim l = [')']
    · simp [hB]
    · simp [hB, h1, h2, h3]

/-- C10: any line whose trimmed form is not a block opener and not a holon
directive leaves the parser state unchanged outside a block — junk lines
at top level are silently ignored, never a parse error — and a lines list
with no holon directive at all parses to a manifest with an empty root
path and no requires or replaces. -/
theorem parse_ignores_unknown_toplevel (lines : List Str)
    (h : ∀ l ∈ lines, trim l ≠ requireOpen ∧ trim l ≠ replaceOpen ∧
      hasPre holonDir (trim l) = false) :
    (∀ m : ModFile, parseLines .none m lines = .ok m) ∧
    parseLines .none {} lines = .ok ⟨[], [], []⟩ := by
  have hmain : ∀ m : ModFile, parseLines .none m lines = .ok m := by
    induction lines with
    | nil => intro m; rfl
    | cons l ls ih =>
        intro m
        have hl := h l (List.mem_cons_self l ls)
        have hstep := parseStep_none_ignored m l hl.1 hl.2.1 hl.2.2
        have ihm := ih (fun x hx => h x (List.mem_cons_of_mem l hx)) m
        simp only [parseLines, hstep]
        exact ihm
    
  exact ⟨hmain, hmain ⟨[], [], []⟩⟩

/-- Witness for `parse_ignores_unknown_toplevel`: junk lines, a stray
closing parenthesis, a comment and a blank line all parse to the empty
manifest. -/
theorem parse_ignores_unknown_toplevel_witness :
    parseLines .none {}
      ["random junk here".toList, "x y z 1 2 3".toList, ")".toList,
       "// a comment".toList, [], "holon2(x)".toList] = .ok ⟨[], [], []⟩ :=
  (parse_ignores_unknown_toplevel
    ["random junk here".toList, "x y z 1 2 3".toList, ")".toList,
     "// a comment".toList, [], "holon2(x)".toList]
    (by decide)).2

/-! ## String toolbox lemmas -/

/-- A string with no whitespace characters at all. -/
def wsfree (s : Str) : Prop := ∀ c ∈ s, isSpace c = false

instance (s : Str) : Decidable (wsfree s) := by unfold wsfree; infer_instance

lemma fieldsAux_word (w : Str) (hw : wsfree w) :
    ∀ (rest acc : Str), fieldsAux (w ++ rest) acc = fieldsAux rest (w.reverse ++ acc) := by
  induction w with
  | nil => intro rest acc; simp
  | cons c cs ih =>
      intro rest acc
      have hc : isSpace c = false := hw c (List.mem_cons_self c cs)
      have hcs : wsfree cs := fun x hx => hw x (List.mem_cons_of_mem c hx)
      simp only [List.cons_append, fieldsAux, hc, Bool.false_eq_true, if_false]
      rw [List.append_eq, ih hcs rest (c :: acc)]
      simp

lemma fieldsAux_space (c : Char) (hc : isSpace c = true) (rest acc : Str) :
    fieldsAux (c :: rest) acc =
      if acc = [] then fieldsAux rest [] else acc.reverse :: fieldsAux rest [] := by
  simp [fieldsAux, hc]

lemma fieldsAux_final (w : Str) (hw : wsfree w) (hne : w ≠ []) :
    fieldsAux w [] = [w] := by
  have h := fieldsAux_word w hw [] []
  rw [List.append_nil] at h
  rw [h]
  simp [fieldsAux, hne]

lemma fields_two (p v : Str) (hp : p ≠ []) (hv : v ≠ [])
    (hwp : wsfree p) (hwv : wsfree v) :
    fields (p ++ ' ' :: v) = [p, v] := by
  unfold fields
  rw [fieldsAux_word p hwp, fieldsAux_space ' ' (by decide)]
  rw [if_neg (by simp [hp])]
  rw [fieldsAux_final v hwv hv]
  simp

lemma fields_three (p v h : Str) (hp : p ≠ []) (hv : v ≠ []) (hh : h ≠ [])
    (hwp : wsfree p) (hwv : wsfree v) (hwh : wsfree h) :
    fields (p ++ ' ' :: v ++ ' ' :: h) = [p, v, h] := by
  have hassoc : p ++ ' ' :: v ++ ' ' :: h = p ++ (' ' :: (v ++ ' ' :: h)) := by
    simp
  rw [hassoc]
  unfold fields
  rw [fieldsAux_word p hwp, fieldsAux_space ' ' (by decide)]
  rw [if_neg (by simp [hp])]
  rw [fieldsAux_word v hwv, fieldsAux_space ' ' (by decide)]
  rw [if_neg (by simp [hv])]
  rw [fieldsAux_final h hwh hh]
  simp

/-! ## Order lemmas for Update's candidate sort -/

/-- Numeric (major, minor, patch) lexicographic order on version triples. -/
def numLE (x y : Int × Int × Int) : Prop :=
  x.1 < y.1 ∨ (x.1 = y.1 ∧ (x.2.1 < y.2.1 ∨ (x.2.1 = y.2.1 ∧ x.2.2 ≤ y.2.2)))

lemma semverLE_iff_numLE (a b : Str) :
    semverLE a b ↔ numLE (parseSemver a).1 (parseSemver b).1 := by
  unfold semverLE compareSemver numLE
  generalize (parseSemver a).1 = x
  generalize (parseSemver b).1 = y
  obtain ⟨x1, x2, x3⟩ := x
  obtain ⟨y1, y2, y3⟩ := y
  simp only []
  split_ifs <;> constructor <;> intro hyp <;> omega

lemma numLE_total (x y : Int × Int × Int) : numLE x y ∨ numLE y x := by
  obtain ⟨x1, x2, x3⟩ := x
  obtain ⟨y1, y2, y3⟩ := y
  unfold numLE
  omega

lemma numLE_trans (x y z : Int × Int × Int) :
    numLE x y → numLE y z → numLE x z := by
  obtain ⟨x1, x2, x3⟩ := x
  obtain ⟨y1, y2, y3⟩ := y
  obtain ⟨z1, z2, z3⟩ := z
  unfold numLE
  omega

instance : IsTotal Str semverLE :=
  ⟨fun a b => by
    rw [semverLE_iff_numLE a b, semverLE_iff_numLE b a]
    exact numLE_total _ _⟩

instance : IsTrans Str semverLE :=
  ⟨fun a b c hab hbc => by
    rw [semverLE_iff_numLE] at hab hbc ⊢
    exact numLE_trans _ _ _ hab hbc⟩

lemma getLastD_mem : ∀ (l : List Str) (d : Str), l ≠ [] → l.getLastD d ∈ l
  | [], _, h => absurd rfl h
  | [a], d, _ => by simp [List.getLastD]
  | a :: b :: t, d, _ => by
      have := getLastD_mem (b :: t) a (by simp)
      simp only [List.getLastD]
      exact List.mem_cons_of_mem a this

lemma sorted_max_getLastD : ∀ (l : List Str), List.Sorted semverLE l →
    ∀ x ∈ l, ∀ d, semverLE x (l.getLastD d)
  | [], _, x, hx, _ => absurd hx (List.not_mem_nil x)
  | [a], _, x, hx, d => by
      simp only [List.mem_singleton] at hx
      subst hx
      have hl : [x].getLastD d = x := rfl
      rw [hl, semverLE_iff_numLE]
      obtain ⟨x1, x2, x3⟩ := (parseSemver x).1
      unfold numLE
      omega
  | a :: b :: t, hs, x, hx, d => by
      have hlast_mem : (b :: t).getLastD a ∈ b :: t := getLastD_mem _ _ (by simp)
      rcases List.mem_cons.mp hx with hxa | hx'
      · subst hxa
        have := (List.pairwise_cons.mp hs).1 _ hlast_mem
        simpa [List.getLastD] using this
      · have ih := sorted_max_getLastD (b :: t) (List.Pairwise.of_cons hs) x hx' a
        simpa [List.getLastD] using ih

lemma splitNL_line (l : Str) (hl : '\n' ∉ l) (rest : Str) :
    splitNL (l ++ '\n' :: rest) = l :: splitNL rest := by
  induction l with
  | nil => simp [splitNL]
  | cons c cs ih =>
      have hc : ¬ c = '\n' := fun hcontra => hl (hcontra ▸ List.mem_cons_self c cs)
      have hcs : '\n' ∉ cs := fun hx => hl (List.mem_cons_of_mem c hx)
      simp only [List.cons_append, splitNL, hc, if_false]
      rw [List.append_eq, ih hcs]

lemma splitNL_unlines (ls : List Str) (h : ∀ l ∈ ls, '\n' ∉ l) :
    splitNL (unlines ls) = ls ++ [[]] := by
  induction ls with
  | nil => rfl
  | cons l ls ih =>
      have hl := h l (List.mem_cons_self l ls)
      have hls := fun x hx => h x (List.mem_cons_of_mem l hx)
      have hu : unlines (l :: ls) = l ++ '\n' :: unlines ls := by
        simp [unlines]
      rw [hu, splitNL_line l hl, ih hls]
      rfl

/-- The `git ls-remote --tags --refs` output listing exactly the given
tags, one `<hash>\t<ref>` line each (the hash column is ignored by the
code; a placeholder is used). -/
def lsRemoteOut (tags : List Str) : Str :=
  unlines (tags.map (fun t => 'x' :: '\t' :: (refsTags ++ t)))

lemma hasPre_self_append : ∀ l t : Str, hasPre l (l ++ t) = true
  | [], _ => rfl
  | a :: as, t => by
      show (a == a && hasPre as (as ++ t)) = true
      rw [beq_self_eq_true, Bool.true_and]
      exact hasPre_self_append as t

lemma trimPre_append (pre t : Str) : trimPre pre (pre ++ t) = t := by
  unfold trimPre
  rw [if_pos (hasPre_self_append pre t)]
  exact List.drop_left pre t

lemma fields_hashline (rest : Str) (hr : wsfree rest) (hne : rest ≠ []) :
    fields ('x' :: '\t' :: rest) = [['x'], rest] := by
  show fieldsAux ((['x'] : Str) ++ '\t' :: rest) [] = _
  rw [fieldsAux_word ['x'] (by decide), fieldsAux_space '\t' (by decide)]
  rw [if_neg (by simp)]
  rw [fieldsAux_final rest hr hne]
  rfl

lemma candidatesOf_lsRemote (tags : List Str) (maj : Int)
    (h : ∀ t ∈ tags, wsfree t) :
    candidatesOf (splitNL (lsRemoteOut tags)) maj =
      tags.filter
        (fun t => (parseSemver t).2 && decide ((parseSemver t).1.1 = maj)) := by
  unfold lsRemoteOut
  rw [splitNL_unlines]
  · unfold candidatesOf
    rw [List.filterMap_append, List.filterMap_map]
    have hnil : List.filterMap (fun line : Str =>
        match fields line with
        | _ :: ref :: _ =>
            let tag := trimPre refsTags ref
            if (parseSemver tag).2 && (parseSemver tag).1.1 = maj then
              some tag
            else none
        | _ => none) [[]] = [] := by rfl
    rw [hnil, List.append_nil]
    induction tags with
    | nil => rfl
    | cons t ts ih =>
        have hwt : wsfree t := h t (List.mem_cons_self t ts)
        have hrest : wsfree (refsTags ++ t) := by
          intro c hc
          rcases List.mem_append.mp hc with hc | hc
          · have hrt : wsfree refsTags := by decide
            exact hrt c hc
          · exact hwt c hc
        have hfields := fields_hashline (refsTags ++ t) hrest (by simp [refsTags])
        rw [List.filterMap_cons, List.filter_cons]
        simp only [Function.comp, hfields, trimPre_append]
        rw [ih (fun x hx => h x (List.mem_cons_of_mem t hx))]
        by_cases hcond : ((parseSemver t).2 && decide ((parseSemver t).1.1 = maj)) = true
        · simp [hcond]
        · simp [hcond]
  · intro l hl
    rcases List.mem_map.mp hl with ⟨t, ht, rfl⟩
    intro hnl
    simp only [List.mem_cons] at hnl
    rcases hnl with h1 | h1 | h1
    · exact absurd h1 (by decide)
    · exact absurd h1 (by decide)
    · rcases List.mem_append.mp h1 with hc | hc
      · have hrt : wsfree refsTags := by decide
        have := hrt '\n' hc
        simp [isSpace] at this
      · have := h t ht '\n' hc
        simp [isSpace] at this

/-- The character of a decimal digit. -/
def digitChar (n : Nat) : Char := Char.ofNat ('0'.toNat + n)

/-- Decimal digits of a natural number, most significant first. -/
def natDigits (n : Nat) : Str :=
  if n < 10 then [digitChar n]
  else natDigits (n / 10) ++ [digitChar (n % 10)]
decreasing_by exact Nat.div_lt_self (by omega) (by omega)

lemma digitChar_facts (n : Nat) (h : n < 10) :
    isDigit (digitChar n) = true ∧ hexVal (digitChar n) = n ∧
    digitChar n ≠ '.' ∧ (n ≠ 0 → digitChar n ≠ '0') ∧
    (n = 0 → digitChar n = '0') ∧ isSpace (digitChar n) = false := by
  interval_cases n <;> exact (by decide)

lemma natDigits_ne_nil (n : Nat) : natDigits n ≠ [] := by
  unfold natDigits
  by_cases h : n < 10 <;> simp [h]

lemma natDigits_all_digits (n : Nat) : ∀ c ∈ natDigits n, isDigit c = true := by
  induction n using Nat.strong_induction_on with
  | _ n ih =>
      unfold natDigits
      by_cases h : n < 10
      · simp only [h, if_true]
        intro c hc
        simp only [List.mem_singleton] at hc
        subst hc
        exact (digitChar_facts n h).1
      · simp only [h, if_false]
        intro c hc
        rcases List.mem_append.mp hc with hc | hc
        · exact ih (n / 10) (Nat.div_lt_self (by omega) (by omega)) c hc
        · simp only [List.mem_singleton] at hc
          subst hc
          exact (digitChar_facts (n % 10) (Nat.mod_lt n (by omega))).1

lemma natDigits_head_ne_zero (n : Nat) (hn : n ≠ 0) :
    ∀ c cs, natDigits n = c :: cs → c ≠ '0' := by
  induction n using Nat.strong_induction_on with
  | _ n ih =>
      unfold natDigits
      by_cases h : n < 10
      · simp only [h, if_true]
        intro c cs hc
        cases hc
        exact (digitChar_facts n h).2.2.2.1 hn
      · simp only [h, if_false]
        intro c cs hc
        have hq : n / 10 ≠ 0 := by
          intro hcontra
          have := Nat.div_eq_zero_iff (by omega) |>.mp hcontra
          omega
        obtain ⟨d, ds, hds⟩ : ∃ d ds, natDigits (n / 10) = d :: ds := by
          cases hnd : natDigits (n / 10) with
          | nil => exact absurd hnd (natDigits_ne_nil _)
          | cons d ds => exact ⟨d, ds, rfl⟩
        rw [hds, List.cons_append] at hc
        have hd := ((List.cons.injEq _ _ _ _).mp hc).1
        subst hd
        exact ih (n / 10) (Nat.div_lt_self (by omega) (by omega)) hq _ _ hds

lemma digitsVal_natDigits (n : Nat) : digitsVal 10 (natDigits n) = n := by
  induction n using Nat.strong_induction_on with
  | _ n ih =>
      unfold natDigits
      by_cases h : n < 10
      · simp only [h, if_true]
        simp [digitsVal, (digitChar_facts n h).2.1]
      · simp only [h, if_false]
        unfold digitsVal
        rw [List.foldl_append]
        have hih := ih (n / 10) (Nat.div_lt_self (by omega) (by omega))
        unfold digitsVal at hih
        rw [hih]
        simp [(digitChar_facts (n % 10) (Nat.mod_lt n (by omega))).2.1]
        omega

lemma isDigit_not_space (c : Char) (h : isDigit c = true) : isSpace c = false := by
  by_contra hcontra
  have hs : isSpace c = true := by
    cases hx : isSpace c
    · exact absurd hx hcontra
    · rfl
  simp only [isSpace, Bool.or_eq_true, decide_eq_true_eq] at hs
  rcases hs with ((((h1 | h1) | h1) | h1) | h1) | h1 <;> subst h1 <;>
    exact absurd h (by decide)

lemma isDigit_ne_signs (c : Char) (h : isDigit c = true) :
    c ≠ '-' ∧ c ≠ '+' := by
  constructor <;> intro h1 <;> subst h1 <;> exact absurd h (by decide)

lemma takeWhile_all (p : Char → Bool) :
    ∀ l : Str, (∀ c ∈ l, p c = true) → l.takeWhile p = l := by
  intro l h
  induction l with
  | nil => rfl
  | cons c cs ih =>
      rw [List.takeWhile_cons, h c (List.mem_cons_self c cs)]
      rw [ih (fun x hx => h x (List.mem_cons_of_mem c hx))]
      simp

lemma sscanInt_natDigits (n : Nat) (hn : n < 2 ^ 63) :
    sscanInt (natDigits n) = some (n : Int) := by
  by_cases hn0 : n = 0
  · subst hn0
    have h0 : natDigits 0 = ['0'] := by
      unfold natDigits
      norm_num
      decide
    rw [h0]
    decide
  · obtain ⟨d, ds, hds⟩ : ∃ d ds, natDigits n = d :: ds := by
      cases hnd : natDigits n with
      | nil => exact absurd hnd (natDigits_ne_nil n)
      | cons d ds => exact ⟨d, ds, rfl⟩
    have hdig : ∀ c ∈ d :: ds, isDigit c = true := by
      rw [← hds]
      exact natDigits_all_digits n
    have hd : isDigit d = true := hdig d (List.mem_cons_self d ds)
    have hdspace : isSpace d = false := isDigit_not_space d hd
    have hdm := (isDigit_ne_signs d hd).1
    have hdp := (isDigit_ne_signs d hd).2
    have hd0 : d ≠ '0' := natDigits_head_ne_zero n hn0 d ds hds
    have hdrop : (d :: ds).dropWhile isSpace = d :: ds := by
      simp [List.dropWhile_cons, hdspace]
    have htake : (d :: ds).takeWhile isDigit = d :: ds := takeWhile_all _ _ hdig
    have hmag : scanMag (d :: ds) = some (digitsVal 10 (d :: ds)) := by
      simp only [scanMag]
      rw [if_neg hd0, htake, if_neg (by simp)]
    have hbody : sscanInt (d :: ds) =
        (scanMag (if d = '-' || d = '+' then ds else d :: ds)).bind
          (fun m =>
            let v : Int := if d = '-' then -(m : Int) else (m : Int)
            if -(2 ^ 63 : Int) ≤ v ∧ v ≤ 2 ^ 63 - 1 then some v else none) := by
      unfold sscanInt
      rw [hdrop]
    rw [hds, hbody, if_neg (by simp [hdm, hdp]), hmag, ← hds,
      digitsVal_natDigits]
    have h63n : (2 : Nat) ^ 63 = 9223372036854775808 := by norm_num
    rw [h63n] at hn
    simp [hdm]
    constructor <;> omega

/-- The canonical form `v<major>.<minor>.<patch>` in plain decimal digits. -/
def vCanon (a b c : Nat) : Str :=
  'v' :: (natDigits a ++ '.' :: (natDigits b ++ '.' :: natDigits c))

lemma splitFirst_dot (w rest : Str) (hw : '.' ∉ w) :
    splitFirst ['.'] (w ++ '.' :: rest) = some (w, rest) := by
  induction w with
  | nil =>
      show splitFirst ['.'] ('.' :: rest) = _
      unfold splitFirst
      rw [if_pos (by simp [hasPre])]
      rfl
  | cons c cs ih =>
      have hc : c ≠ '.' := fun hcontra => hw (hcontra ▸ List.mem_cons_self c cs)
      have hcs : '.' ∉ cs := fun hx => hw (List.mem_cons_of_mem c hx)
      show splitFirst ['.'] (c :: (cs ++ '.' :: rest)) = _
      unfold splitFirst
      rw [if_neg (by simp [hasPre, Ne.symm hc])]
      rw [ih hcs]

lemma dot_not_in_natDigits (n : Nat) : '.' ∉ natDigits n := by
  intro hmem
  have := natDigits_all_digits n '.' hmem
  exact absurd this (by decide)

lemma splitDots3_canon (a b c : Nat) :
    splitDots3 (natDigits a ++ '.' :: (natDigits b ++ '.' :: natDigits c)) =
      [natDigits a, natDigits b, natDigits c] := by
  simp only [splitDots3, splitFirst_dot _ _ (dot_not_in_natDigits a),
    splitFirst_dot _ _ (dot_not_in_natDigits b)]

lemma parseSemver_canonical (a b c : Nat) (ha : a < 2 ^ 63) (hb : b < 2 ^ 63)
    (hc : c < 2 ^ 63) :
    parseSemver (vCanon a b c) = (((a : Int), (b : Int), (c : Int)), true) := by
  have h1 : trimPre ['v'] (vCanon a b c)
      = natDigits a ++ '.' :: (natDigits b ++ '.' :: natDigits c) := by
    unfold vCanon
    rw [show ('v' :: (natDigits a ++ '.' :: (natDigits b ++ '.' :: natDigits c)))
        = ['v'] ++ (natDigits a ++ '.' :: (natDigits b ++ '.' :: natDigits c))
        from rfl]
    exact trimPre_append _ _
  simp only [parseSemver, h1, splitDots3_canon]
  simp only [sscanInt_natDigits a ha, sscanInt_natDigits b hb,
    sscanInt_natDigits c hc, Option.getD_some, Option.isSome_some,
    Bool.and_self]

/-- C8 (amended): the current version is treated as parseable exactly under
Go's lenient `Sscan` integer syntax — after stripping one leading `v` and
splitting at the first two dots there must be exactly three parts, each
starting (after optional spaces and an optional sign) with at least one
digit whose signed value fits in int64; trailing characters after the
scanned integer are ignored and negative components are accepted, so
`v1.2.3rc1` and `v1.2.-3` are parseable while `v1.2`, `vx.2.3` and a
component of 2^63 are not (2^63 overflows int64, while -2^63 still fits);
canonical `v<major>.<minor>.<patch>` with components below 2^63 parses to
its numeric triple; and whenever the current version is not parseable,
`latestCompatibleTag` returns it unchanged, for any remote output, without
error. -/
theorem parseSemver_lenient_pattern :
    (∀ out cur, (parseSemver cur).2 = false →
      latestCompatibleTag out cur = cur) ∧
    (∀ a b c : Nat, a < 2 ^ 63 → b < 2 ^ 63 → c < 2 ^ 63 →
      parseSemver (vCanon a b c) = (((a : Int), (b : Int), (c : Int)), true)) ∧
    parseSemver "v1.2.3rc1".toList = ((1, 2, 3), true) ∧
    parseSemver "v1.2.-3".toList = ((1, 2, -3), true) ∧
    (parseSemver "v1.2".toList).2 = false ∧
    (parseSemver "vx.2.3".toList).2 = false ∧
    (parseSemver "v9223372036854775808.0.0".toList).2 = false ∧
    parseSemver "v0.0.-9223372036854775808".toList =
      ((0, 0, -9223372036854775808), true) := by
  refine ⟨?_, parseSemver_canonical, by decide, by decide, by decide,
    by decide, by decide, by decide⟩
  intro out cur hbad
  unfold latestCompatibleTag
  simp [hbad]

/-- Counterexample to C8 as stated: `v1.2.3rc1` (extra suffix characters)
and `v1.2.-3` (a negative component) are both accepted by `parseSemver`,
which the claim says should not match. -/
theorem parseSemver_strict_pattern_counterexample :
    (parseSemver "v1.2.3rc1".toList).2 = true ∧
    (parseSemver "v1.2.-3".toList).2 = true := by decide

/-- Witness for `parseSemver_lenient_pattern`: a non-parseable current
version is returned unchanged, and a concrete canonical version parses. -/
theorem parseSemver_lenient_pattern_witness :
    latestCompatibleTag "x refs/tags/v2.0.0".toList "not-semver".toList =
      "not-semver".toList ∧
    parseSemver (vCanon 1 22 333) = ((1, 22, 333), true) :=
  ⟨parseSemver_lenient_pattern.1 _ _ (by decide),
   parseSemver_lenient_pattern.2.1 1 22 333 (by norm_num) (by norm_num)
     (by norm_num)⟩

/-! ## Round-trip infrastructure shared by the holon.mod and holon.sum
round-trip theorems -/

lemma dropCR_eq_self (l : Str) (h : ∀ c, l.getLast? = some c → c ≠ '\r') :
    dropCR l = l := by
  unfold dropCR
  cases hrev : l.reverse with
  | nil => rfl
  | cons c cs =>
      have hlast : l.getLast? = some c := by
        rw [← List.head?_reverse, hrev]
        rfl
      show (if c = '\r' then cs.reverse else l) = l
      rw [if_neg (h c hlast)]

lemma splitLinesAux_line (l : Str) (hl : '\n' ∉ l) :
    ∀ (rest acc : Str),
    splitLinesAux (l ++ '\n' :: rest) acc =
      dropCR (acc.reverse ++ l) :: splitLinesAux rest [] := by
  induction l with
  | nil =>
      intro rest acc
      simp [splitLinesAux]
  | cons c cs ih =>
      intro rest acc
      have hc : ¬ c = '\n' := fun hcontra => hl (hcontra ▸ List.mem_cons_self c cs)
      have hcs : '\n' ∉ cs := fun hx => hl (List.mem_cons_of_mem c hx)
      simp only [List.cons_append, splitLinesAux, hc, if_false]
      rw [List.append_eq, ih hcs rest (c :: acc)]
      simp

lemma splitLines_unlines_good (ls : List Str)
    (h : ∀ l ∈ ls, '\n' ∉ l ∧ dropCR l = l) :
    splitLines (unlines ls) = ls := by
  induction ls with
  | nil => rfl
  | cons l ls ih =>
      have hl := h l (List.mem_cons_self l ls)
      have hls := fun x hx => h x (List.mem_cons_of_mem l hx)
      have hu : unlines (l :: ls) = l ++ '\n' :: unlines ls := by
        simp [unlines]
      rw [hu]
      show splitLinesAux (l ++ '\n' :: unlines ls) [] = l :: ls
      rw [splitLinesAux_line l hl.1]
      rw [List.reverse_nil, List.nil_append, hl.2]
      rw [show splitLinesAux (unlines ls) [] = splitLines (unlines ls) from rfl]
      rw [ih hls]

lemma trimL_spaces (sp : Str) (hsp : ∀ c ∈ sp, isSpace c = true) (x : Str) :
    trimL (sp ++ x) = trimL x := by
  induction sp with
  | nil => rfl
  | cons c cs ih =>
      have hc := hsp c (List.mem_cons_self c cs)
      have hcs := fun y hy => hsp y (List.mem_cons_of_mem c hy)
      show List.dropWhile isSpace (c :: (cs ++ x)) = _
      rw [List.dropWhile_cons, hc]
      exact ih hcs

lemma trimL_head (c : Char) (cs : Str) (hc : isSpace c = false) :
    trimL (c :: cs) = c :: cs := by
  show List.dropWhile isSpace (c :: cs) = _
  rw [List.dropWhile_cons, hc]
  simp

lemma trimR_of_last (l : Str)
    (h : ∀ c, l.getLast? = some c → isSpace c = false) : trimR l = l := by
  unfold trimR
  cases hrev : l.reverse with
  | nil =>
      have : l = [] := by
        have := congrArg List.reverse hrev
        simpa using this
      simp [this]
  | cons c cs =>
      have hlast : l.getLast? = some c := by
        rw [← List.head?_reverse, hrev]
        rfl
      rw [List.dropWhile_cons, h c hlast]
      simp only [if_false, Bool.false_eq_true]
      rw [← hrev, List.reverse_reverse]

lemma ltStr_asymm : ∀ a b : Str, ltStr a b = true → ltStr b a = false
  | [], [], h => by simp [ltStr] at h
  | [], _ :: _, _ => by simp [ltStr]
  | _ :: _, [], h => by simp [ltStr] at h
  | x :: xs, y :: ys, h => by
      unfold ltStr at h ⊢
      by_cases h1 : x < y
      · rw [if_neg (lt_asymm h1), if_pos h1]
      · rw [if_neg h1] at h
        by_cases h2 : y < x
        · rw [if_pos h2] at h
          simp at h
        · rw [if_neg h2] at h
          rw [if_neg h2, if_neg h1]
          exact ltStr_asymm xs ys h

lemma ltStr_irrefl : ∀ a : Str, ltStr a a = false
  | [] => rfl
  | x :: xs => by
      unfold ltStr
      rw [if_neg (lt_irrefl x), if_neg (lt_irrefl x)]
      exact ltStr_irrefl xs

lemma ltStr_eq_of_not : ∀ a b : Str, ltStr a b = false → ltStr b a = false → a = b
  | [], [], _, _ => rfl
  | [], _ :: _, h1, _ => by simp [ltStr] at h1
  | _ :: _, [], _, h2 => by simp [ltStr] at h2
  | x :: xs, y :: ys, h1, h2 => by
      unfold ltStr at h1 h2
      by_cases hxy : x < y
      · rw [if_pos hxy] at h1
        simp at h1
      · by_cases hyx : y < x
        · rw [if_pos hyx] at h2
          simp at h2
        · rw [if_neg hxy, if_neg hyx] at h1
          rw [if_neg hyx, if_neg hxy] at h2
          have hx : x = y := le_antisymm (not_lt.mp hyx) (not_lt.mp hxy)
          rw [hx, ltStr_eq_of_not xs ys h1 h2]

lemma ltStr_trans : ∀ a b c : Str, ltStr a b = true → ltStr b c = true →
    ltStr a c = true
  | [], b, [], h1, h2 => by
      cases b with
      | nil => simp [ltStr] at h1
      | cons _ _ => simp [ltStr] at h2
  | [], _, _ :: _, _, _ => by simp [ltStr]
  | _ :: _, [], _, h1, _ => by simp [ltStr] at h1
  | x :: xs, y :: ys, [], _, h2 => by simp [ltStr] at h2
  | x :: xs, y :: ys, z :: zs, h1, h2 => by
      unfold ltStr at h1 h2 ⊢
      by_cases hxy : x < y
      · by_cases hyz : y < z
        · rw [if_pos (lt_trans hxy hyz)]
        · by_cases hzy : z < y
          · rw [if_neg hyz, if_pos hzy] at h2
            simp at h2
          · have hy : y = z := le_antisymm (not_lt.mp hzy) (not_lt.mp hyz)
            rw [if_pos (hy ▸ hxy)]
      · by_cases hyx : y < x
        · rw [if_neg hxy, if_pos hyx] at h1
          simp at h1
        · have hx : x = y := le_antisymm (not_lt.mp hyx) (not_lt.mp hxy)
          rw [if_neg hxy, if_neg hyx] at h1
          by_cases hyz : y < z
          · rw [if_pos (hx ▸ hyz)]
          · by_cases hzy : z < y
            · rw [if_neg hyz, if_pos hzy] at h2
              simp at h2
            · have hy : y = z := le_antisymm (not_lt.mp hzy) (not_lt.mp hyz)
              rw [if_neg hyz, if_neg hzy] at h2
              subst hy
              subst hx
              rw [if_neg (lt_irrefl x), if_neg (lt_irrefl x)]
              exact ltStr_trans xs ys zs h1 h2

lemma ltStr_neg_trans (a b c : Str) (h1 : ltStr b a = false)
    (h2 : ltStr c b = false) : ltStr c a = false := by
  by_cases hca : ltStr c a = true
  · by_cases hab : ltStr a b = true
    · have := ltStr_trans c a b hca hab
      rw [this] at h2
      cases h2
    · have hab' : ltStr a b = false := Bool.not_eq_true _ |>.mp hab
      have heq := ltStr_eq_of_not a b hab' h1
      rw [heq] at hca
      rw [hca] at h2
      cases h2
  · exact Bool.not_eq_true _ |>.mp hca

lemma ltStr_lt_of_ne (a b : Str) (hne : ¬ a = b) (h : ltStr b a = false) :
    ltStr a b = true := by
  by_cases hc : ltStr a b = true
  · exact hc
  · exact absurd (ltStr_eq_of_not a b (Bool.not_eq_true _ |>.mp hc) h) hne

lemma sumLess_asymm (x y : SumEntry) (h : sumLess x y = true) :
    sumLess y x = false := by
  unfold sumLess at h ⊢
  by_cases hp : x.path = y.path
  · rw [if_neg (not_not_intro hp)] at h
    rw [if_neg (not_not_intro hp.symm)]
    exact ltStr_asymm _ _ h
  · rw [if_pos hp] at h
    rw [if_pos (fun he => hp he.symm)]
    exact ltStr_asymm _ _ h

instance : IsTotal SumEntry sumLE :=
  ⟨fun x y => by
    unfold sumLE
    by_cases h : sumLess y x = true
    · right
      exact sumLess_asymm y x h
    · left
      exact Bool.not_eq_true _ |>.mp h⟩

lemma sumLess_neg_trans (x y z : SumEntry) (h1 : sumLess y x = false)
    (h2 : sumLess z y = false) : sumLess z x = false := by
  unfold sumLess at h1 h2 ⊢
  by_cases hyx : y.path = x.path
  · rw [if_neg (not_not_intro hyx)] at h1
    by_cases hzy : z.path = y.path
    · rw [if_neg (not_not_intro hzy)] at h2
      rw [if_neg (not_not_intro (hzy.trans hyx))]
      exact ltStr_neg_trans _ _ _ h1 h2
    · rw [if_pos hzy] at h2
      have hzx : ¬ z.path = x.path := by
        rw [← hyx]
        exact hzy
      rw [if_pos hzx, ← hyx]
      exact h2
  · rw [if_pos hyx] at h1
    by_cases hzy : z.path = y.path
    · rw [if_neg (not_not_intro hzy)] at h2
      have hzx : ¬ z.path = x.path := by
        rw [hzy]
        exact hyx
      rw [if_pos hzx, hzy]
      exact h1
    · rw [if_pos hzy] at h2
      by_cases hzx : z.path = x.path
      · have hxy : ltStr x.path y.path = true :=
          ltStr_lt_of_ne _ _ (fun he => hyx he.symm) h1
        have hyz : ltStr y.path z.path = true :=
          ltStr_lt_of_ne _ _ (fun he => hzy he.symm) h2
        have htr := ltStr_trans _ _ _ hxy hyz
        rw [hzx, ltStr_irrefl] at htr
        cases htr
      · rw [if_pos hzx]
        exact ltStr_neg_trans _ _ _ h1 h2

instance : IsTrans SumEntry sumLE :=
  ⟨fun x y z h1 h2 => sumLess_neg_trans x y z h1 h2⟩

lemma wsfree_last (l : Str) (hw : wsfree l) :
    ∀ c, l.getLast? = some c → isSpace c = false := by
  intro c hc
  have hin : c ∈ l.getLast? := by
    rw [hc]
    rfl
  rcases List.mem_getLast?_eq_getLast hin with ⟨hne, hx⟩
  exact hw c (hx ▸ List.getLast_mem hne)

lemma ne_cr_of_not_space (c : Char) (h : isSpace c = false) : c ≠ '\r' := by
  intro he
  subst he
  exact absurd h (by decide)

lemma trim_entryLine (p v h : Str) (hp : p ≠ []) (hh : h ≠ [])
    (hwp : wsfree p) (hwh : wsfree h) :
    trim (p ++ ' ' :: v ++ ' ' :: h) = p ++ ' ' :: v ++ ' ' :: h := by
  unfold trim
  cases p with
  | nil => exact absurd rfl hp
  | cons c cs =>
      have hc : isSpace c = false := hwp c (List.mem_cons_self c cs)
      have hL : trimL ((c :: cs ++ ' ' :: v) ++ ' ' :: h) =
          (c :: cs ++ ' ' :: v) ++ ' ' :: h := by
        rw [show ((c :: cs ++ ' ' :: v) ++ ' ' :: h)
            = c :: ((cs ++ ' ' :: v) ++ ' ' :: h) by simp]
        exact trimL_head c _ hc
      rw [hL]
      apply trimR_of_last
      intro x hx
      rw [List.getLast?_append_of_ne_nil _ (by simp)] at hx
      rw [show (' ' :: h) = [' '] ++ h from rfl,
        List.getLast?_append_of_ne_nil _ hh] at hx
      exact wsfree_last h hwh x hx

lemma parseSumLines_run (es : List SumEntry)
    (hg : ∀ e ∈ es, e.path ≠ [] ∧ e.version ≠ [] ∧ e.hash ≠ [] ∧
      wsfree e.path ∧ wsfree e.version ∧ wsfree e.hash) :
    ∀ acc, parseSumLines acc
      (es.map (fun e => e.path ++ ' ' :: e.version ++ ' ' :: e.hash)) =
      .ok ⟨acc ++ es⟩ := by
  induction es with
  | nil =>
      intro acc
      simp [parseSumLines]
  | cons e es ih =>
      intro acc
      obtain ⟨hp, hv, hh, hwp, hwv, hwh⟩ := hg e (List.mem_cons_self e es)
      have htrim := trim_entryLine e.path e.version e.hash hp hh hwp hwh
      have hfields := fields_three e.path e.version e.hash hp hv hh hwp hwv hwh
      have hne : e.path ++ ' ' :: e.version ++ ' ' :: e.hash ≠ [] := by
        cases hp' : e.path with
        | nil => exact absurd hp' hp
        | cons a as => simp [hp']
      simp only [List.map_cons, parseSumLines, htrim, hfields, hne, if_false]
      rw [ih (fun x hx => hg x (List.mem_cons_of_mem e hx)) (acc ++ [e])]
      simp

/-- C5 (amended): serializing a sum file writes its entries sorted
ascending by (path, versionKey) regardless of insertion order, and — for
entries whose path, versionKey and hash are nonempty and whitespace-free —
parsing the serialized text yields exactly the sorted entries, hence the
same set of (path, versionKey, hash) triples as the original. -/
theorem sum_roundtrip_sorted (s : SumFile)
    (h : ∀ e ∈ s.entries, e.path ≠ [] ∧ e.version ≠ [] ∧ e.hash ≠ [] ∧
      wsfree e.path ∧ wsfree e.version ∧ wsfree e.hash) :
    List.Pairwise sumLE (sortSum s.entries) ∧
    parseSum (serializeSum s) = .ok ⟨sortSum s.entries⟩ ∧
    (∀ e, e ∈ sortSum s.entries ↔ e ∈ s.entries) := by
  have hsort_mem : ∀ e : SumEntry, e ∈ sortSum s.entries ↔ e ∈ s.entries :=
    fun e => List.mem_insertionSort sumLE
  have hgood : ∀ e ∈ sortSum s.entries, e.path ≠ [] ∧ e.version ≠ [] ∧
      e.hash ≠ [] ∧ wsfree e.path ∧ wsfree e.version ∧ wsfree e.hash :=
    fun e he => h e ((hsort_mem e).mp he)
  refine ⟨List.sorted_insertionSort sumLE s.entries, ?_, hsort_mem⟩
  unfold parseSum serializeSum
  rw [splitLines_unlines_good]
  · have := parseSumLines_run (sortSum s.entries) hgood []
    simpa using this
  · intro l hl
    rcases List.mem_map.mp hl with ⟨e, he, rfl⟩
    obtain ⟨hp, hv, hh, hwp, hwv, hwh⟩ := hgood e he
    constructor
    · intro hmem
      rcases List.mem_append.mp hmem with hmem | hmem
      · rcases List.mem_append.mp hmem with hm | hm
        · exact absurd (hwp '\n' hm) (by decide)
        · rcases List.mem_cons.mp hm with he' | hm
          · exact absurd he' (by decide)
          · exact absurd (hwv '\n' hm) (by decide)
      · rcases List.mem_cons.mp hmem with he' | hm
        · exact absurd he' (by decide)
        · exact absurd (hwh '\n' hm) (by decide)
    · apply dropCR_eq_self
      intro c hc
      rw [List.getLast?_append_of_ne_nil _ (by simp)] at hc
      rw [show (' ' :: e.hash) = [' '] ++ e.hash from rfl,
        List.getLast?_append_of_ne_nil _ hh] at hc
      exact ne_cr_of_not_space c (wsfree_last e.hash hwh c hc)

instance {e a : Type} [DecidableEq e] [DecidableEq a] :
    DecidableEq (Except e a) := fun x y =>
  match x, y with
  | .ok x1, .ok y1 =>
      if h : x1 = y1 then isTrue (by rw [h])
      else isFalse (fun hc => h (Except.ok.inj hc))
  | .error x1, .error y1 =>
      if h : x1 = y1 then isTrue (by rw [h])
      else isFalse (fun hc => h (Except.error.inj hc))
  | .ok _, .error _ => isFalse (fun hc => Except.noConfusion hc)
  | .error _, .ok _ => isFalse (fun hc => Except.noConfusion hc)

/-- Counterexample to C5 as stated: an entry whose path contains a space
serializes to a four-field line, so parsing the serialized text fails
instead of returning the original triples. -/
theorem sum_roundtrip_counterexample :
    parseSum (serializeSum ⟨[⟨"a b".toList, "v1".toList, "h1:x".toList⟩]⟩) =
      .error (.invalidLine "a b v1 h1:x".toList) := by decide

/-- Witness for `sum_roundtrip_sorted`: three entries inserted unsorted
come back sorted by (path, versionKey) with the same triples. -/
theorem sum_roundtrip_sorted_witness :
    parseSum (serializeSum ⟨[⟨"dep/b".toList, "v2.0.0".toList, "h1:ghi".toList⟩,
        ⟨"dep/a".toList, "v1.0.0/HOLON.md".toList, "h1:def".toList⟩,
        ⟨"dep/a".toList, "v1.0.0".toList, "h1:abc".toList⟩]⟩) =
      .ok ⟨sortSum [⟨"dep/b".toList, "v2.0.0".toList, "h1:ghi".toList⟩,
        ⟨"dep/a".toList, "v1.0.0/HOLON.md".toList, "h1:def".toList⟩,
        ⟨"dep/a".toList, "v1.0.0".toList, "h1:abc".toList⟩]⟩ ∧
    (⟨"dep/a".toList, "v1.0.0".toList, "h1:abc".toList⟩ : SumEntry) ∈
      sortSum [⟨"dep/b".toList, "v2.0.0".toList, "h1:ghi".toList⟩,
        ⟨"dep/a".toList, "v1.0.0/HOLON.md".toList, "h1:def".toList⟩,
        ⟨"dep/a".toList, "v1.0.0".toList, "h1:abc".toList⟩] := by
  have hmain := sum_roundtrip_sorted
    ⟨[⟨"dep/b".toList, "v2.0.0".toList, "h1:ghi".toList⟩,
      ⟨"dep/a".toList, "v1.0.0/HOLON.md".toList, "h1:def".toList⟩,
      ⟨"dep/a".toList, "v1.0.0".toList, "h1:abc".toList⟩]⟩ (by decide)
  exact ⟨hmain.2.1,
    (hmain.2.2 ⟨"dep/a".toList, "v1.0.0".toList, "h1:abc".toList⟩).mpr
      (by decide)⟩

/-! ## The holon.mod round trip (C1) -/

/-- No trailing whitespace (in particular no trailing `\r`). -/
def noTrailWS (l : Str) : Bool :=
  match l.getLast? with
  | none => true
  | some c => !isSpace c

lemma noTrailWS_last (l : Str) (h : noTrailWS l = true) :
    ∀ c, l.getLast? = some c → isSpace c = false := by
  intro c hc
  unfold noTrailWS at h
  rw [hc] at h
  simpa using h

/-- A root path that survives the round trip: no embedded newline, no
trailing whitespace. -/
def goodHP (hp : Str) : Prop := '\n' ∉ hp ∧ noTrailWS hp = true

/-- A requirement that survives the round trip: nonempty whitespace-free
path and version whose serialized line does not collide with a block
opener, a holon directive or a comment. -/
def goodReq (r : Require) : Prop :=
  r.path ≠ [] ∧ r.version ≠ [] ∧ wsfree r.path ∧ wsfree r.version ∧
  r.path ++ ' ' :: r.version ≠ requireOpen ∧
  r.path ++ ' ' :: r.version ≠ replaceOpen ∧
  hasPre holonDir (r.path ++ ' ' :: r.version) = false ∧
  hasPre commentStart (r.path ++ ' ' :: r.version) = false

/-- A replacement that survives the round trip, analogously. -/
def goodRep (r : Replace) : Prop :=
  r.old ≠ [] ∧ r.localPath ≠ [] ∧ wsfree r.old ∧ wsfree r.localPath ∧
  r.old ++ sepArrow ++ r.localPath ≠ requireOpen ∧
  r.old ++ sepArrow ++ r.localPath ≠ replaceOpen ∧
  hasPre holonDir (r.old ++ sepArrow ++ r.localPath) = false ∧
  hasPre commentStart (r.old ++ sepArrow ++ r.localPath) = false

/-- A manifest that survives the round trip. -/
def goodMod (m : ModFile) : Prop :=
  goodHP m.holonPath ∧ (∀ r ∈ m.require, goodReq r) ∧
  (∀ r ∈ m.replace, goodRep r)

instance (hp : Str) : Decidable (goodHP hp) := by unfold goodHP; infer_instance

instance (r : Require) : Decidable (goodReq r) := by
  unfold goodReq; infer_instance

instance (r : Replace) : Decidable (goodRep r) := by
  unfold goodRep; infer_instance

instance (m : ModFile) : Decidable (goodMod m) := by
  unfold goodMod; infer_instance

lemma parseStep_blank (b : Block) (m : ModFile) :
    parseStep b m [] = .ok (b, m) := rfl

lemma parseStep_close (b : Block) (m : ModFile) :
    parseStep b m [')'] = .ok (.none, m) := rfl

lemma parseStep_reqOpen (b : Block) (m : ModFile) :
    parseStep b m requireOpen = .ok (.require, m) := rfl

lemma parseStep_repOpen (b : Block) (m : ModFile) :
    parseStep b m replaceOpen = .ok (.replace, m) := rfl

lemma parseLines_cons (b : Block) (m : ModFile) (l : Str) (ls : List Str)
    (b' : Block) (m' : ModFile) (h : parseStep b m l = .ok (b', m')) :
    parseLines b m (l :: ls) = parseLines b' m' ls := by
  simp [parseLines, h]

lemma parseStep_holon (m : ModFile) (hp : Str) (hhp : goodHP hp)
    (hm : m.holonPath = []) :
    parseStep .none m (holonDir ++ hp) =
      .ok (.none, { m with holonPath := hp }) := by
  obtain ⟨hnl, htr⟩ := hhp
  cases hp with
  | nil =>
      have hmm : ({ m with holonPath := [] } : ModFile) = m := by
        cases m
        simp_all
      rw [hmm]
      rfl
  | cons c cs =>
      have htrim : trim (holonDir ++ c :: cs) = holonDir ++ c :: cs := by
        unfold trim
        rw [show holonDir ++ c :: cs = 'h' :: ("olon ".toList ++ c :: cs)
            from rfl]
        rw [trimL_head 'h' _ (by decide)]
        rw [show 'h' :: ("olon ".toList ++ c :: cs) = holonDir ++ c :: cs
            from rfl]
        apply trimR_of_last
        intro x hx
        rw [List.getLast?_append_of_ne_nil _ (by simp)] at hx
        exact noTrailWS_last (c :: cs) htr x hx
      have h1 : (holonDir ++ c :: cs) ≠ [] := by simp [holonDir]
      have h2 : hasPre commentStart (holonDir ++ c :: cs) = false := rfl
      have h3 : (holonDir ++ c :: cs) ≠ [')'] := by simp [holonDir]
      have h4 : (holonDir ++ c :: cs) ≠ requireOpen := by
        intro hcontra
        have := congrArg (fun l => l.headD ' ') hcontra
        simp [holonDir, requireOpen] at this
      have h5 : (holonDir ++ c :: cs) ≠ replaceOpen := by
        intro hcontra
        have := congrArg (fun l => l.headD ' ') hcontra
        simp [holonDir, replaceOpen] at this
      have h6 : hasPre holonDir (holonDir ++ c :: cs) = true :=
        hasPre_self_append _ _
      simp only [parseStep, htrim, h1, h2, h3, h4, h5, h6, Bool.or_self,
        Bool.false_eq_true, if_false, if_true, if_neg h1, if_neg h3,
        if_neg h4, if_neg h5]
      simp only [decide_False, Bool.or_false, Bool.false_or, if_false,
        Bool.false_eq_true]
      rw [List.drop_left]

lemma trim_wsfree (l : Str) (hw : wsfree l) : trim l = l := by
  unfold trim
  have hL : trimL l = l := by
    cases l with
    | nil => rfl
    | cons c cs => exact trimL_head c cs (hw c (List.mem_cons_self c cs))
  rw [hL]
  exact trimR_of_last l (wsfree_last l hw)

lemma trim_reqLine (p v : Str) (hp : p ≠ []) (hv : v ≠ [])
    (hwp : wsfree p) (hwv : wsfree v) :
    trim ("    ".toList ++ p ++ ' ' :: v) = p ++ ' ' :: v := by
  unfold trim
  have hL : trimL ("    ".toList ++ p ++ ' ' :: v) = p ++ ' ' :: v := by
    rw [List.append_assoc, trimL_spaces "    ".toList (by decide)]
    cases p with
    | nil => exact absurd rfl hp
    | cons c cs =>
        rw [show (c :: cs) ++ ' ' :: v = c :: (cs ++ ' ' :: v) from rfl]
        exact trimL_head c _ (hwp c (List.mem_cons_self c cs))
  rw [hL]
  apply trimR_of_last
  intro x hx
  rw [show (' ' :: v) = [' '] ++ v from rfl] at hx
  rw [← List.append_assoc, List.getLast?_append_of_ne_nil _ hv] at hx
  exact wsfree_last v hwv x hx

lemma parseStep_reqLine (m : ModFile) (r : Require) (hr : goodReq r) :
    parseStep .require m (reqLine r) =
      .ok (.require, { m with require := m.require ++ [r] }) := by
  obtain ⟨hp, hv, hwp, hwv, hne1, hne2, hnh, hnc⟩ := hr
  have htrim : trim (reqLine r) = r.path ++ ' ' :: r.version :=
    trim_reqLine r.path r.version hp hv hwp hwv
  have hln : r.path ++ ' ' :: r.version ≠ [] := by
    cases hpc : r.path with
    | nil => exact absurd hpc hp
    | cons a as => simp [hpc]
  have hcl : r.path ++ ' ' :: r.version ≠ [')'] := by
    cases hpc : r.path with
    | nil => exact absurd hpc hp
    | cons a as =>
        intro hcontra
        rw [List.cons_append] at hcontra
        have := ((List.cons.injEq _ _ _ _).mp hcontra).2
        exact absurd this (by simp)
  have hfld : fields (r.path ++ ' ' :: r.version) = [r.path, r.version] :=
    fields_two r.path r.version hp hv hwp hwv
  simp only [parseStep, htrim, hnc, Bool.or_eq_true, decide_eq_true_eq,
    Bool.false_eq_true, or_false, if_neg hln, if_neg hcl, if_neg hne1,
    if_neg hne2, hnh, if_false, hfld]

lemma splitFirst_sep_wsfree (old rest : Str) (hw : wsfree old) :
    splitFirst sepArrow (old ++ (sepArrow ++ rest)) = some (old, rest) := by
  induction old with
  | nil => rfl
  | cons c cs ih =>
      have hc : isSpace c = false := hw c (List.mem_cons_self c cs)
      have hcsp : c ≠ ' ' := by
        intro he
        subst he
        exact absurd hc (by decide)
      have hnp : hasPre sepArrow (c :: (cs ++ (sepArrow ++ rest))) = false := by
        rw [show hasPre sepArrow (c :: (cs ++ (sepArrow ++ rest)))
            = ((' ' == c) && hasPre "=> ".toList (cs ++ (sepArrow ++ rest)))
            from rfl]
        rw [beq_eq_false_iff_ne.mpr (Ne.symm hcsp), Bool.false_and]
      show splitFirst sepArrow (c :: (cs ++ (sepArrow ++ rest))) = _
      unfold splitFirst
      rw [hnp]
      simp only [Bool.false_eq_true, if_false]
      rw [ih (fun x hx => hw x (List.mem_cons_of_mem c hx))]

lemma trim_repLine (o l : Str) (ho : o ≠ []) (hl : l ≠ [])
    (hwo : wsfree o) (hwl : wsfree l) :
    trim ("    ".toList ++ o ++ sepArrow ++ l) = o ++ sepArrow ++ l := by
  unfold trim
  have hL : trimL ("    ".toList ++ o ++ sepArrow ++ l) = o ++ sepArrow ++ l := by
    rw [List.append_assoc, List.append_assoc,
      trimL_spaces "    ".toList (by decide)]
    cases o with
    | nil => exact absurd rfl ho
    | cons c cs =>
        rw [show (c :: cs) ++ (sepArrow ++ l) = c :: (cs ++ (sepArrow ++ l))
            from rfl]
        rw [trimL_head c _ (hwo c (List.mem_cons_self c cs))]
        simp
  rw [hL]
  apply trimR_of_last
  intro x hx
  rw [List.getLast?_append_of_ne_nil _ hl] at hx
  exact wsfree_last l hwl x hx

lemma parseStep_repLine (m : ModFile) (r : Replace) (hr : goodRep r) :
    parseStep .replace m (repLine r) =
      .ok (.replace, { m with replace := m.replace ++ [r] }) := by
  obtain ⟨ho, hl, hwo, hwl, hne1, hne2, hnh, hnc⟩ := hr
  have htrim : trim (repLine r) = r.old ++ sepArrow ++ r.localPath :=
    trim_repLine r.old r.localPath ho hl hwo hwl
  have hln : r.old ++ sepArrow ++ r.localPath ≠ [] := by
    cases hoc : r.old with
    | nil => exact absurd hoc ho
    | cons a as => simp [hoc]
  have hcl : r.old ++ sepArrow ++ r.localPath ≠ [')'] := by
    cases hoc : r.old with
    | nil => exact absurd hoc ho
    | cons a as =>
        intro hcontra
        rw [List.cons_append, List.cons_append] at hcontra
        have := ((List.cons.injEq _ _ _ _).mp hcontra).2
        exact absurd this (by simp [sepArrow])
  have hsplit : splitFirst sepArrow (r.old ++ sepArrow ++ r.localPath) =
      some (r.old, r.localPath) := by
    rw [List.append_assoc]
    exact splitFirst_sep_wsfree r.old r.localPath hwo
  simp only [parseStep, htrim, hnc, Bool.or_eq_true, decide_eq_true_eq,
    Bool.false_eq_true, or_false, if_neg hln, if_neg hcl, if_neg hne1,
    if_neg hne2, hnh, if_false, hsplit, trim_wsfree r.old hwo,
    trim_wsfree r.localPath hwl]

lemma parseLines_reqRun (rs : List Require) (h : ∀ r ∈ rs, goodReq r) :
    ∀ (m : ModFile) (rest : List Str),
      parseLines .require m (rs.map reqLine ++ rest) =
        parseLines .require { m with require := m.require ++ rs } rest := by
  induction rs with
  | nil =>
      intro m rest
      simp
  | cons r rs ih =>
      intro m rest
      rw [List.map_cons, List.cons_append,
        parseLines_cons _ _ _ _ _ _
          (parseStep_reqLine m r (h r (List.mem_cons_self r rs))),
        ih (fun x hx => h x (List.mem_cons_of_mem r hx))]
      simp

lemma parseLines_repRun (rs : List Replace) (h : ∀ r ∈ rs, goodRep r) :
    ∀ (m : ModFile) (rest : List Str),
      parseLines .replace m (rs.map repLine ++ rest) =
        parseLines .replace { m with replace := m.replace ++ rs } rest := by
  induction rs with
  | nil =>
      intro m rest
      simp
  | cons r rs ih =>
      intro m rest
      rw [List.map_cons, List.cons_append,
        parseLines_cons _ _ _ _ _ _
          (parseStep_repLine m r (h r (List.mem_cons_self r rs))),
        ih (fun x hx => h x (List.mem_cons_of_mem r hx))]
      simp

lemma reqLine_good (r : Require) (hr : goodReq r) :
    '\n' ∉ reqLine r ∧ dropCR (reqLine r) = reqLine r := by
  obtain ⟨hp, hv, hwp, hwv, -, -, -, -⟩ := hr
  constructor
  · intro hmem
    rcases List.mem_append.mp hmem with hm | hm
    · rcases List.mem_append.mp hm with hm | hm
      · exact absurd hm (by decide)
      · exact absurd (hwp '\n' hm) (by decide)
    · rcases List.mem_cons.mp hm with he | hm
      · exact absurd he (by decide)
      · exact absurd (hwv '\n' hm) (by decide)
  · apply dropCR_eq_self
    intro c hc
    unfold reqLine at hc
    rw [show (' ' :: r.version) = [' '] ++ r.version from rfl] at hc
    rw [← List.append_assoc, List.getLast?_append_of_ne_nil _ hv] at hc
    exact ne_cr_of_not_space c (wsfree_last r.version hwv c hc)

lemma repLine_good (r : Replace) (hr : goodRep r) :
    '\n' ∉ repLine r ∧ dropCR (repLine r) = repLine r := by
  obtain ⟨ho, hl, hwo, hwl, -, -, -, -⟩ := hr
  constructor
  · intro hmem
    rcases List.mem_append.mp hmem with hm | hm
    · rcases List.mem_append.mp hm with hm | hm
      · rcases List.mem_append.mp hm with hm | hm
        · exact absurd hm (by decide)
        · exact absurd (hwo '\n' hm) (by decide)
      · exact absurd hm (by decide)
    · exact absurd (hwl '\n' hm) (by decide)
  · apply dropCR_eq_self
    intro c hc
    unfold repLine at hc
    rw [List.getLast?_append_of_ne_nil _ hl] at hc
    exact ne_cr_of_not_space c (wsfree_last r.localPath hwl c hc)

lemma serializeLines_good (m : ModFile) (hm : goodMod m) :
    ∀ l ∈ serializeLines m, '\n' ∉ l ∧ dropCR l = l := by
  obtain ⟨⟨hnl, htr⟩, hreq, hrep⟩ := hm
  intro l hl
  unfold serializeLines at hl
  rcases List.mem_cons.mp hl with rfl | hl
  · constructor
    · intro hmem
      rcases List.mem_append.mp hmem with hm | hm
      · exact absurd hm (by decide)
      · exact hnl hm
    · apply dropCR_eq_self
      intro c hc
      cases hhp : m.holonPath with
      | nil =>
          rw [hhp] at hc
          rw [show holonDir ++ ([] : Str) = holonDir from by simp] at hc
          rw [show List.getLast? holonDir = some ' ' from by decide] at hc
          have hcs : ' ' = c := Option.some.inj hc
          rw [← hcs]
          decide
      | cons a as =>
          rw [hhp, List.getLast?_append_of_ne_nil _ (by simp)] at hc
          have := noTrailWS_last (a :: as) (hhp ▸ htr) c hc
          exact ne_cr_of_not_space c this
  · rcases List.mem_append.mp hl with hl | hl
    · by_cases hre : m.require = []
      · rw [hre] at hl
        simp at hl
      · rw [if_neg hre] at hl
        rcases List.mem_cons.mp hl with rfl | hl
        · exact ⟨by decide, rfl⟩
        · rcases List.mem_append.mp hl with hl | hl
          · rcases List.mem_cons.mp hl with rfl | hl
            · exact ⟨by decide, rfl⟩
            · rcases List.mem_map.mp hl with ⟨r, hr, rfl⟩
              exact reqLine_good r (hreq r hr)
          · rcases List.mem_singleton.mp hl with rfl
            exact ⟨by decide, rfl⟩
    · by_cases hre : m.replace = []
      · rw [hre] at hl
        simp at hl
      · rw [if_neg hre] at hl
        rcases List.mem_cons.mp hl with rfl | hl
        · exact ⟨by decide, rfl⟩
        · rcases List.mem_append.mp hl with hl | hl
          · rcases List.mem_cons.mp hl with rfl | hl
            · exact ⟨by decide, rfl⟩
            · rcases List.mem_map.mp hl with ⟨r, hr, rfl⟩
              exact repLine_good r (hrep r hr)
          · rcases List.mem_singleton.mp hl with rfl
            exact ⟨by decide, rfl⟩

/-- C1 (amended): `Parse(Serialize(m))` returns `m` itself — same root
path, same requires in order, same replaces in order — for every manifest
whose root path has no embedded newline and no trailing whitespace, and
whose require and replace fields are nonempty, whitespace-free, and do not
make a serialized line collide with a block opener, a holon directive or a
comment. -/
theorem manifest_roundtrip (m : ModFile) (h : goodMod m) :
    parse (serialize m) = .ok m := by
  obtain ⟨hp, rs, rps⟩ := m
  obtain ⟨hhp, hreq, hrep⟩ := h
  unfold parse serialize
  rw [splitLines_unlines_good _ (serializeLines_good _ ⟨hhp, hreq, hrep⟩)]
  unfold serializeLines
  simp only [List.cons_append, List.append_assoc, List.singleton_append]
  rw [parseLines_cons _ _ _ _ _ _ (parseStep_holon {} hp hhp rfl)]
  by_cases hrs : rs = [] <;> by_cases hrps : rps = []
  · subst hrs
    subst hrps
    simp [parseLines]
  · subst hrs
    rw [if_pos rfl, if_neg hrps]
    simp only [List.nil_append, List.cons_append, List.append_assoc,
      List.singleton_append]
    rw [parseLines_cons _ _ _ _ _ _ (parseStep_blank _ _),
      parseLines_cons _ _ _ _ _ _ (parseStep_repOpen _ _),
      parseLines_repRun rps hrep _ _,
      parseLines_cons _ _ _ _ _ _ (parseStep_close _ _)]
    simp [parseLines]
  · subst hrps
    rw [if_neg hrs, if_pos rfl]
    simp only [List.append_nil, List.cons_append, List.append_assoc,
      List.singleton_append]
    rw [parseLines_cons _ _ _ _ _ _ (parseStep_blank _ _),
      parseLines_cons _ _ _ _ _ _ (parseStep_reqOpen _ _),
      parseLines_reqRun rs hreq _ _,
      parseLines_cons _ _ _ _ _ _ (parseStep_close _ _)]
    simp [parseLines]
  · rw [if_neg hrs, if_neg hrps]
    simp only [List.cons_append, List.append_assoc, List.singleton_append]
    rw [parseLines_cons _ _ _ _ _ _ (parseStep_blank _ _),
      parseLines_cons _ _ _ _ _ _ (parseStep_reqOpen _ _),
      parseLines_reqRun rs hreq _ _,
      parseLines_cons _ _ _ _ _ _ (parseStep_close _ _)]
    simp only [List.nil_append]
    rw [parseLines_cons _ _ _ _ _ _ (parseStep_blank _ _),
      parseLines_cons _ _ _ _ _ _ (parseStep_repOpen _ _),
      parseLines_repRun rps hrep _ _,
      parseLines_cons _ _ _ _ _ _ (parseStep_close _ _)]
    simp [parseLines]

/-- Counterexample to C1 as stated: a require path containing a space
serializes to a three-field require line, which `Parse` rejects, so the
round trip does not hold for every manifest. -/
theorem manifest_roundtrip_counterexample :
    parse (serialize ⟨"app".toList, [⟨"a b".toList, "v1".toList⟩], []⟩) =
      .error (.invalidRequire "a b v1".toList) := by decide

/-- Witness for `manifest_roundtrip`: a concrete manifest with two
requires and one replace round-trips to itself. -/
theorem manifest_roundtrip_witness :
    parse (serialize ⟨"github.com/org/myholon".toList,
      [⟨"github.com/org/dep-a".toList, "v1.2.0".toList⟩,
       ⟨"github.com/org/dep-b".toList, "v0.5.0".toList⟩],
      [⟨"github.com/org/dep-a".toList, "../local-dep-a".toList⟩]⟩) =
      .ok ⟨"github.com/org/myholon".toList,
        [⟨"github.com/org/dep-a".toList, "v1.2.0".toList⟩,
         ⟨"github.com/org/dep-b".toList, "v0.5.0".toList⟩],
        [⟨"github.com/org/dep-a".toList, "../local-dep-a".toList⟩]⟩ :=
  manifest_roundtrip
    ⟨"github.com/org/myholon".toList,
      [⟨"github.com/org/dep-a".toList, "v1.2.0".toList⟩,
       ⟨"github.com/org/dep-b".toList, "v0.5.0".toList⟩],
      [⟨"github.com/org/dep-a".toList, "../local-dep-a".toList⟩]⟩
    (by decide)
